import Mathlib

/-!
Verification development for the tree-normalization engine of mwlib
(`mwlib/advtree.py`).

The parse tree is embedded shallowly: a node is a `ANode` with a semantic
`Kind` (the Python class of the node), a caption (Python strings are
embedded as `List Char`), the `h_level`/`_h_level` attributes relevant to
section handling, and an ordered list of children.  Parent back-references
and the weakref machinery of the source are represented implicitly by the
tree structure; the primitive mutation operations of `AdvancedNode`
(`appendChild`, `removeChild`, `replaceChild`, `moveto`) are additionally
modelled explicitly as operations on an id-based state (`MState` below),
because their invariants quantify over nodes that may be attached to
several parents.

Each pass of `buildAdvancedTree` is translated from the source with its
in-place, snapshot-iterating semantics made explicit:

* a pass iterates over a snapshot `node.children[:]` of a children list,
  so a node removed mid-pass changes the *live* previous sibling of the
  nodes after it, while the nodes after it are still unprocessed; the
  list-processing functions below thread exactly this information
  (an accumulator of already-processed live siblings, and the blockness
  of the live previous sibling).
-/

/-- The semantic node kinds of the parser (`mwlib.parser`) and of
`mwlib.advtree`.  `node` is the fully generic grouping `parser.Node`;
`style` the generic `parser.Style`; `tagNode` the generic
`parser.TagNode`; `sect` is `parser.Section`.  The remaining constructors
are the specific classes defined in `advtree.py` (`Emphasized`, `Strong`,
`DefinitionList`, ..., `ImageMap`). -/
inductive Kind where
  | node | text | style | tagNode | sect | paragraph | preformatted
  | item | itemList | table | row | cell
  | article | book | chapter | timeline
  | url | namedURL | link | categoryLink | specialLink
  | emphasized | strong
  | definitionList | definitionTerm | definitionDescription
  | blockquote | indented
  | overline | underline | sub | sup | small | big | cite
  | code | breakingReturn | horizontalRule | index | teletyped
  | reference | referenceList | gallery | center | div | span
  | strike | imageMap
deriving DecidableEq, Repr

/-- `AdvancedNode.isinlinenode`, resolved per kind.  The inline kinds are
the classes in `_inlineNodesMap` (line 325 of the source), plus
`blockquote`, which is not listed but inherits `isinlinenode = True` from
`Style`.  Everything else is a block node: the classes in
`_blockNodesMap`, and the classes in neither list (generic `Node`,
generic `TagNode`, `Code`, `Div`, `Center`, `Strike`, `ImageMap`), which
inherit the class default `isinlinenode = False` of `AdvancedNode`. -/
def Kind.isinline : Kind → Bool
  | .url | .namedURL | .link | .categoryLink | .specialLink | .style
  | .text | .index | .teletyped | .breakingReturn | .reference
  | .strong | .emphasized | .sub | .sup | .small | .underline
  | .overline | .span | .big | .blockquote => true
  | _ => false

/-- Captions: Python strings embedded as lists of characters. -/
abbrev Str := List Char

/-- The quote character (used by the style tokens made of quotes). -/
def quoteChar : Char := Char.ofNat 39

/-- The style token of two quote characters. -/
def quote2 : Str := [quoteChar, quoteChar]

/-- The style token of three quote characters. -/
def quote3 : Str := [quoteChar, quoteChar, quoteChar]

/-- The style token of five quote characters. -/
def quote5 : Str := [quoteChar, quoteChar, quoteChar, quoteChar, quoteChar]

/-- The definition-term style token, a single semicolon. -/
def semiTok : Str := [';']

/-- Whitespace in the sense of Python `str.strip()`. -/
def isPySpace (ch : Char) : Bool :=
  ch = ' ' || ch = '\t' || ch = '\n' || ch = '\x0b' || ch = '\x0c' || ch = '\r'

/-- `caption.strip() == u""`: the caption consists solely of whitespace
(including the empty caption). -/
def whitespaceOnly (c : Str) : Bool := c.all isPySpace

/-- `caption.replace("\n", " ")`: each newline character becomes a single
space; for a single-character pattern this is a character map. -/
def replaceNL (c : Str) : Str := c.map fun ch => if ch = '\n' then ' ' else ch

/-- `caption.startswith(":")`. -/
def startsWithColon : Str → Bool
  | [] => false
  | ch :: _ => ch = ':'

/-- A parse-tree node.  `hLevel` is the `h_level` attribute documented on
`AdvancedSection` (a class attribute defaulting to 0); `hUnder` is the
`_h_level` instance attribute that `fixTagNodes` actually assigns
(absent, i.e. `none`, unless assigned). -/
inductive ANode where
  | mk (kind : Kind) (caption : Str) (hLevel : Nat) (hUnder : Option Nat)
       (children : List ANode)
deriving Repr

def ANode.kind : ANode → Kind
  | .mk k _ _ _ _ => k

def ANode.caption : ANode → Str
  | .mk _ c _ _ _ => c

def ANode.hLevel : ANode → Nat
  | .mk _ _ h _ _ => h

def ANode.hUnder : ANode → Option Nat
  | .mk _ _ _ u _ => u

def ANode.children : ANode → List ANode
  | .mk _ _ _ _ cs => cs

/-- `AdvancedNode.isblocknode` (the negation of `isinlinenode`). -/
def ANode.isblock (t : ANode) : Bool := !t.kind.isinline

def ANode.withChildren : ANode → List ANode → ANode
  | .mk k c h u _, cs => .mk k c h u cs

mutual

/-- Boolean equality of trees (componentwise). -/
def ANode.beq : ANode → ANode → Bool
  | .mk k c h u cs, .mk k2 c2 h2 u2 cs2 =>
    k = k2 && c = c2 && h = h2 && u = u2 && ANode.beqL cs cs2

/-- Boolean equality of tree lists. -/
def ANode.beqL : List ANode → List ANode → Bool
  | [], [] => true
  | a :: as, b :: bs => ANode.beq a b && ANode.beqL as bs
  | _, _ => false
termination_by structural as _ => as

end

mutual

theorem ANode.beq_iff : ∀ a b : ANode, ANode.beq a b = true ↔ a = b
  | .mk k c h u cs, .mk k2 c2 h2 u2 cs2 => by
    simp [ANode.beq, ANode.beqL_iff cs cs2, and_assoc]

theorem ANode.beqL_iff : ∀ as bs : List ANode, ANode.beqL as bs = true ↔ as = bs
  | [], [] => by simp [ANode.beqL]
  | [], _ :: _ => by simp [ANode.beqL]
  | _ :: _, [] => by simp [ANode.beqL]
  | a :: as, b :: bs => by
    simp [ANode.beqL, ANode.beq_iff a b, ANode.beqL_iff as bs]

end

instance : DecidableEq ANode := fun a b => decidable_of_iff _ (ANode.beq_iff a b)

/-! ## Classification tables (§ "Missing as Classes" of the source) -/

/-- `_tagNodeMap`: the dictionary from literal tag names (the `_tag`
class attributes) to the corresponding specific kinds. -/
def tagNodeMap : List (Str × Kind) :=
  [("code".toList, .code), ("br".toList, .breakingReturn),
   ("hr".toList, .horizontalRule), ("index".toList, .index),
   ("tt".toList, .teletyped), ("ref".toList, .reference),
   ("references".toList, .referenceList), ("gallery".toList, .gallery),
   ("center".toList, .center), ("div".toList, .div),
   ("span".toList, .span), ("strike".toList, .strike),
   ("imagemap".toList, .imageMap)]

/-- `c.caption in _tagNodeMap` / `_tagNodeMap[c.caption]`. -/
def tagLookup (c : Str) : Option Kind :=
  (tagNodeMap.find? fun p => p.1 = c).map fun p => p.2

/-- The heading-tag tokens `h1` .. `h6` and their digit
(`int(c.caption[1])` in the source, on a caption known to be one of the
six tokens). -/
def headingLevel (c : Str) : Option Nat :=
  if c = "h1".toList then some 1
  else if c = "h2".toList then some 2
  else if c = "h3".toList then some 3
  else if c = "h4".toList then some 4
  else if c = "h5".toList then some 5
  else if c = "h6".toList then some 6
  else none

/-- `_styleNodeMap`: the dictionary from character-style tokens (the
`_style` class attributes) to the corresponding specific kinds,
including the special entry mapping the deprecated token `s` to
`Strike`. -/
def styleNodeMap : List (Str × Kind) :=
  [("overline".toList, .overline), ("u".toList, .underline),
   ("sub".toList, .sub), ("sup".toList, .sup),
   ("small".toList, .small), ("big".toList, .big),
   ("cite".toList, .cite), ("s".toList, .strike)]

/-- `node.caption in _styleNodeMap` / `_styleNodeMap[node.caption]`. -/
def styleLookup (c : Str) : Option Kind :=
  (styleNodeMap.find? fun p => p.1 = c).map fun p => p.2

/-! ## `fixTagNodes`

The source walks the tree from the root, examining each *child* (the root
itself is never reclassified): a generic `TagNode` whose caption is in
`_tagNodeMap` has its class replaced (caption kept); one whose caption is
a heading token `h1`..`h6` becomes a `Section` with caption cleared and
the digit stored in the `_h_level` attribute (while the documented
`h_level` class attribute of `AdvancedSection` is never assigned); any
other caption is logged as a warning and the node is left as a generic
`TagNode`.  Children are then visited recursively. -/

mutual

def fixTagNodesT : ANode → ANode
  | .mk k c h u cs => .mk k c h u (fixTagNodesL cs)

def fixTagNodesL : List ANode → List ANode
  | [] => []
  | (ANode.mk k c h u cs) :: rest =>
    (if k = Kind.tagNode then
      match tagLookup c with
      | some k2 => ANode.mk k2 c h u (fixTagNodesL cs)
      | none =>
        match headingLevel c with
        | some n => ANode.mk Kind.sect [] h (some n) (fixTagNodesL cs)
        | none => ANode.mk k c h u (fixTagNodesL cs)
     else fixTagNodesT (ANode.mk k c h u cs)) :: fixTagNodesL rest
termination_by structural l => l

end

def fixTagNodes (t : ANode) : ANode := fixTagNodesT t

mutual

/-- The `unknowntagnode` warnings of `fixTagNodes` for one examined
(non-root) node and its subtree, in traversal order. -/
def tagWarnT : ANode → List Str
  | .mk k c _ _ cs =>
    (if k = Kind.tagNode ∧ tagLookup c = none ∧ headingLevel c = none
     then [c] else []) ++ tagWarnL cs

def tagWarnL : List ANode → List Str
  | [] => []
  | t :: rest => tagWarnT t ++ tagWarnL rest
termination_by structural l => l

end

/-- All `unknowntagnode` warnings of one `fixTagNodes` run: the root
itself is never examined, only the nodes below it. -/
def tagWarnings (t : ANode) : List Str := tagWarnL t.children

/-! ## `removeNodes`

A node of the fully generic grouping kind `Node` is replaced in its
parent by its own children (splice-out), recursively.  The source would
raise `AttributeError` on a *root* of kind `Node` (`node.parent` is
`None`); the root is therefore not examined here. -/

mutual

def removeNodesT : ANode → ANode
  | .mk k c h u cs => .mk k c h u (removeNodesL cs)

def removeNodesL : List ANode → List ANode
  | [] => []
  | (ANode.mk k c h u cs) :: rest =>
    (if k = Kind.node then removeNodesL cs
     else [removeNodesT (ANode.mk k c h u cs)]) ++ removeNodesL rest
termination_by structural l => l

end

def removeNodes (t : ANode) : ANode := removeNodesT t

/-! ## `removeNewlines`

For a `Text` node with no `PreFormatted` ancestor:
* if its caption is whitespace-only, it is removed from its parent when
  `not next or next.isblocknode or not prev or prev.isblocknode`, where
  `next` is its live next sibling or, when absent, its parent's live next
  sibling, and `prev` is its live previous sibling or, when absent, the
  parent itself;
* (whether removed or not) its caption has every newline replaced by a
  single space — for a retained node this is the visible effect.

`rnlL inPre prevB pnext l` processes the children list `l` of some node:
`inPre` says whether a `PreFormatted` ancestor exists, `prevB` is the
blockness of the live previous sibling (initially of the parent itself),
and `pnext` is the blockness of the parent's next sibling (`none` when
the parent has none — then `next` is absent).  A parentless
whitespace-only `Text` root would make the source raise `AttributeError`
(`node.parent.next` on `None`); that case is modelled as the identity. -/

/-- The `not next or next.isblocknode` half of the boundary test:
true when the `next` node is absent or a block node. -/
def boundaryNext : Option Bool → Bool
  | none => true
  | some b => b

mutual

def rnlT (inPre : Bool) (childPN : Option Bool) : ANode → ANode
  | .mk k c h u cs =>
    .mk k (if k = Kind.text ∧ inPre = false then replaceNL c else c) h u
      (rnlL (inPre || k = Kind.preformatted) (ANode.mk k c h u cs).isblock childPN cs)

def rnlL (inPre : Bool) (prevB : Bool) (pnext : Option Bool) :
    List ANode → List ANode
  | [] => []
  | (ANode.mk k c h u cs) :: rest =>
    if k = Kind.text ∧ inPre = false ∧ whitespaceOnly c = true ∧
        (boundaryNext (match rest with
          | n :: _ => some n.isblock
          | [] => pnext) = true ∨ prevB = true) then
      rnlL inPre prevB pnext rest
    else
      rnlT inPre (match rest with
          | n :: _ => some n.isblock
          | [] => none) (ANode.mk k c h u cs) ::
        rnlL inPre (ANode.mk k c h u cs).isblock pnext rest
termination_by structural l => l

end

def removeNewlines (t : ANode) : ANode :=
  if t.kind = Kind.text ∧ whitespaceOnly t.caption = true then t
  else rnlT false none t

/-! ## `fixStyles`

Every node of the generic `Style` kind is rewritten according to its
caption; the live previous sibling decides the definition-list cases.
The accumulator of `fixStylesL` is the list of already-processed live
siblings: a `;`- or `:`-node whose live previous sibling is a
`DefinitionList` is *moved* out of the current list to become the last
child of that sibling (after its current last child), exactly as
`node.moveto(node.previous.lastchild)` does.  On a childless
`DefinitionList` previous sibling the source would raise
(`moveto(None)`); that unreachable-in-our-theorems case leaves the node
unchanged in place.  A node whose caption matches no rule is logged and
left as a generic `Style` node.  Children are processed after the node
itself (for a moved node, inside its new parent). -/

mutual

def fixStylesT : ANode → ANode
  | .mk k c h u cs => .mk k c h u (fixStylesL [] cs)

def fixStylesL (acc : List ANode) : List ANode → List ANode
  | [] => acc
  | (ANode.mk k c h u cs) :: rest =>
    if k = Kind.style then
      if c = quote2 then
        fixStylesL (acc ++ [ANode.mk Kind.emphasized [] h u (fixStylesL [] cs)]) rest
      else if c = quote5 then
        fixStylesL (acc ++ [ANode.mk Kind.strong [] h u
          [ANode.mk Kind.emphasized quote2 0 none (fixStylesL [] cs)]]) rest
      else if c = quote3 then
        fixStylesL (acc ++ [ANode.mk Kind.strong [] h u (fixStylesL [] cs)]) rest
      else if c = semiTok then
        match acc.getLast? with
        | some p =>
          if p.kind = Kind.definitionList then
            match p.children.getLast? with
            | some _ =>
              fixStylesL (acc.dropLast ++ [p.withChildren (p.children ++
                [ANode.mk Kind.definitionTerm c h u (fixStylesL [] cs)])]) rest
            | none => fixStylesL (acc ++ [ANode.mk k c h u cs]) rest
          else
            fixStylesL (acc ++ [ANode.mk Kind.definitionList c h u
              [ANode.mk Kind.definitionTerm [] 0 none (fixStylesL [] cs)]]) rest
        | none =>
          fixStylesL (acc ++ [ANode.mk Kind.definitionList c h u
            [ANode.mk Kind.definitionTerm [] 0 none (fixStylesL [] cs)]]) rest
      else if startsWithColon c then
        match acc.getLast? with
        | some p =>
          if p.kind = Kind.definitionList then
            match p.children.getLast? with
            | some _ =>
              fixStylesL (acc.dropLast ++ [p.withChildren (p.children ++
                [ANode.mk Kind.definitionDescription [] h u (fixStylesL [] cs)])]) rest
            | none => fixStylesL (acc ++ [ANode.mk k c h u cs]) rest
          else
            fixStylesL (acc ++ [ANode.mk Kind.indented c h u (fixStylesL [] cs)]) rest
        | none =>
          fixStylesL (acc ++ [ANode.mk Kind.indented c h u (fixStylesL [] cs)]) rest
      else
        match styleLookup c with
        | some k2 => fixStylesL (acc ++ [ANode.mk k2 [] h u (fixStylesL [] cs)]) rest
        | none => fixStylesL (acc ++ [fixStylesT (ANode.mk k c h u cs)]) rest
    else
      fixStylesL (acc ++ [fixStylesT (ANode.mk k c h u cs)]) rest
termination_by structural l => l

end

def fixStyles (t : ANode) : ANode := (fixStylesL [] [t]).headD t

/-- A caption a generic `Style` node may carry that matches none of the
rules of `fixStyle` (the source's final `else`, which logs
`unknownstyle`). -/
def unknownStyleCap (c : Str) : Bool :=
  c ≠ quote2 && c ≠ quote5 && c ≠ quote3 && c ≠ semiTok &&
    !startsWithColon c && (styleLookup c).isNone

mutual

/-- The captions for which `fixStyles` emits its `unknownstyle` warning.
Every node of the tree (the root included) receives exactly one
`fixStyle` examination during the pass — nodes moved into an
already-processed `DefinitionList` were examined from their original
position, and the nodes the pass creates are never of the generic
`Style` kind — so the warning multiset is that of the `Style` nodes of
the input with unrecognized captions, collected here in preorder. -/
def styleWarnT : ANode → List Str
  | .mk k c _ _ cs =>
    (if k = Kind.style ∧ unknownStyleCap c = true then [c] else []) ++ styleWarnL cs

def styleWarnL : List ANode → List Str
  | [] => []
  | t :: rest => styleWarnT t ++ styleWarnL rest
termination_by structural l => l

end

/-! ## `fixLists`

An `ItemList` that is the sole child of a `Paragraph` which itself has a
parent is spliced to replace that `Paragraph` in the grandparent's
children; the detached `Paragraph` becomes unreachable.  The test is
performed when the `ItemList` node is visited, so the replacing
`ItemList` is not re-examined in its new position, and a root
`Paragraph` (no grandparent) is never replaced. -/

mutual

def fixListsT : ANode → ANode
  | .mk k c h u cs => .mk k c h u (fixListsL cs)

def fixListsL : List ANode → List ANode
  | [] => []
  | (ANode.mk k c h u [ANode.mk k2 c2 h2 u2 cs2]) :: rest =>
    (if k = Kind.paragraph ∧ k2 = Kind.itemList then
      ANode.mk k2 c2 h2 u2 (fixListsL cs2)
     else ANode.mk k c h u (fixListsL [ANode.mk k2 c2 h2 u2 cs2])) :: fixListsL rest
  | (ANode.mk k c h u cs) :: rest =>
    ANode.mk k c h u (fixListsL cs) :: fixListsL rest

end

def fixLists (t : ANode) : ANode := fixListsT t

/-! ## `removeBreakingReturns`

A `BreakingReturn` child is removed when the same boundary predicate as
in `removeNewlines` holds (live next sibling or parent's next sibling
absent-or-block, or live previous sibling or parent block).  The root
itself is never examined. -/

mutual

def rbrT (childPN : Option Bool) : ANode → ANode
  | .mk k c h u cs => .mk k c h u (rbrL (ANode.mk k c h u cs).isblock childPN cs)

def rbrL (prevB : Bool) (pnext : Option Bool) : List ANode → List ANode
  | [] => []
  | (ANode.mk k c h u cs) :: rest =>
    if k = Kind.breakingReturn ∧
        (boundaryNext (match rest with
          | n :: _ => some n.isblock
          | [] => pnext) = true ∨ prevB = true) then
      rbrL prevB pnext rest
    else
      rbrT (match rest with
          | n :: _ => some n.isblock
          | [] => none) (ANode.mk k c h u cs) ::
        rbrL (ANode.mk k c h u cs).isblock pnext rest
termination_by structural l => l

end

def removeBreakingReturns (t : ANode) : ANode := rbrT none t

/-! ## The pipeline -/

/-- `buildAdvancedTree`: the fixed pass order of the source.
`extendClasses` only attaches mixin behaviour and parent back-references,
both implicit in this embedding, so it is the identity here. -/
def buildAdvancedTree (t : ANode) : ANode :=
  removeBreakingReturns (fixLists (fixStyles (removeNewlines (removeNodes (fixTagNodes t)))))

/-- The warnings the pipeline logs: the `unknowntagnode` warnings of
`fixTagNodes` (on the input tree) followed by the `unknownstyle`
warnings of `fixStyles` (on the tree as it stands when `fixStyles`
runs). -/
def pipelineWarnings (t : ANode) : List Str :=
  tagWarnings t ++ styleWarnT (removeNewlines (removeNodes (fixTagNodes t)))

mutual

/-- Number of nodes of a tree (used to separate trees). -/
def ANode.size : ANode → Nat
  | .mk _ _ _ _ cs => 1 + ANode.sizeL cs

def ANode.sizeL : List ANode → Nat
  | [] => 0
  | t :: rest => ANode.size t + ANode.sizeL rest
termination_by structural l => l

end

/-! ## Helper predicates and lemmas -/

mutual

/-- No node of the generic `Style` kind occurs in the tree. -/
def styleFree : ANode → Bool
  | .mk k _ _ _ cs => (if k = Kind.style then false else styleFreeL cs)

/-- No node of the generic `Style` kind occurs in the list of trees. -/
def styleFreeL : List ANode → Bool
  | [] => true
  | t :: rest => styleFree t && styleFreeL rest
termination_by structural l => l

end

mutual

theorem fixStylesT_of_styleFree : ∀ t, styleFree t = true → fixStylesT t = t
  | .mk k c h u cs => by
    intro hf
    simp only [styleFree] at hf
    split at hf
    · exact absurd hf (by simp)
    · simp only [fixStylesT, fixStylesL_of_styleFree cs hf [], List.nil_append]

theorem fixStylesL_of_styleFree :
    ∀ l, styleFreeL l = true → ∀ acc, fixStylesL acc l = acc ++ l
  | [], _, acc => by simp [fixStylesL]
  | (ANode.mk k c h u cs) :: rest, hf, acc => by
    simp only [styleFreeL, Bool.and_eq_true] at hf
    obtain ⟨hhead, hrest⟩ := hf
    have hk : ¬ k = Kind.style := by
      simp only [styleFree] at hhead
      intro hcon
      rw [if_pos hcon] at hhead
      exact absurd hhead (by simp)
    rw [fixStylesL, if_neg hk,
      fixStylesT_of_styleFree (ANode.mk k c h u cs) hhead,
      fixStylesL_of_styleFree rest hrest]
    simp

end

/-- The tag table never yields the generic `TagNode` kind. -/
theorem tagLookup_ne_tagNode {c : Str} {k2 : Kind} (h : tagLookup c = some k2) :
    k2 ≠ Kind.tagNode := by
  intro hk
  subst hk
  unfold tagLookup at h
  rcases hfind : tagNodeMap.find? fun p => p.1 = c with _ | pair
  · rw [hfind] at h
    cases h
  · have hmem := List.mem_of_find?_eq_some hfind
    rw [hfind] at h
    simp only [Option.map_some', Option.some.injEq] at h
    have hall : tagNodeMap.all (fun p => !(p.2 = Kind.tagNode)) = true := by decide
    rw [List.all_eq_true] at hall
    have := hall pair hmem
    rw [h] at this
    exact absurd this (by decide)

mutual

theorem fixTagNodesT_twice : ∀ t, fixTagNodesT (fixTagNodesT t) = fixTagNodesT t
  | .mk k c h u cs => by
    simp only [fixTagNodesT, fixTagNodesL_twice cs]

theorem fixTagNodesL_twice : ∀ l, fixTagNodesL (fixTagNodesL l) = fixTagNodesL l
  | [] => by simp [fixTagNodesL]
  | (ANode.mk k c h u cs) :: rest => by
    by_cases hk : k = Kind.tagNode
    · rcases hlook : tagLookup c with _ | k2
      · rcases hhead : headingLevel c with _ | n
        · rw [fixTagNodesL, if_pos hk, hlook, hhead]
          rw [fixTagNodesL, if_pos hk, hlook, hhead,
            fixTagNodesL_twice cs, fixTagNodesL_twice rest]
        · rw [fixTagNodesL, if_pos hk, hlook, hhead]
          rw [fixTagNodesL, if_neg (by decide : ¬ Kind.sect = Kind.tagNode),
            fixTagNodesT, fixTagNodesL_twice cs, fixTagNodesL_twice rest]
      · rw [fixTagNodesL, if_pos hk, hlook]
        rw [fixTagNodesL, if_neg (tagLookup_ne_tagNode hlook),
          fixTagNodesT, fixTagNodesL_twice cs, fixTagNodesL_twice rest]
    · rw [fixTagNodesL, if_neg hk, fixTagNodesT]
      rw [fixTagNodesL, if_neg hk, fixTagNodesT,
        fixTagNodesL_twice cs, fixTagNodesL_twice rest]

end

/-! ## Claim C1 -/

/-- The input refuting pipeline idempotence: an `Article` holding a
`Paragraph` with a `Style ":"` node, a whitespace-only text node and a
text node.  The first run turns the style node into an `Indented` block
(and keeps the whitespace text, whose neighbours are inline at that
point); the second run then removes the whitespace text node, because
its live previous sibling has become a block node. -/
def pipeIdemEx : ANode :=
  .mk .article [] 0 none
    [.mk .paragraph [] 0 none
      [.mk .style [':'] 0 none [],
       .mk .text [' '] 0 none [],
       .mk .text ['x'] 0 none []]]

/-- Claim C1 (counterexample): running `buildAdvancedTree` twice is not
the same as running it once — on `pipeIdemEx` the second run removes a
whitespace-only text node that the first run retained. -/
theorem C1_counterexample :
    buildAdvancedTree (buildAdvancedTree pipeIdemEx) ≠ buildAdvancedTree pipeIdemEx := by
  have h1 : fixStyles (removeNewlines (removeNodes (fixTagNodes pipeIdemEx)))
      = .mk .article [] 0 none [.mk .paragraph [] 0 none
          [.mk .indented [':'] 0 none [], .mk .text [' '] 0 none [],
           .mk .text ['x'] 0 none []]] := by decide
  have h2 : fixLists (ANode.mk .article [] 0 none [.mk .paragraph [] 0 none
          [.mk .indented [':'] 0 none [], .mk .text [' '] 0 none [],
           .mk .text ['x'] 0 none []]])
      = .mk .article [] 0 none [.mk .paragraph [] 0 none
          [.mk .indented [':'] 0 none [], .mk .text [' '] 0 none [],
           .mk .text ['x'] 0 none []]] := by
    simp [fixLists, fixListsT, fixListsL]
  have h3 : removeBreakingReturns (ANode.mk .article [] 0 none [.mk .paragraph [] 0 none
          [.mk .indented [':'] 0 none [], .mk .text [' '] 0 none [],
           .mk .text ['x'] 0 none []]])
      = .mk .article [] 0 none [.mk .paragraph [] 0 none
          [.mk .indented [':'] 0 none [], .mk .text [' '] 0 none [],
           .mk .text ['x'] 0 none []]] := by decide
  have h4 : fixStyles (removeNewlines (removeNodes (fixTagNodes
        (ANode.mk .article [] 0 none [.mk .paragraph [] 0 none
          [.mk .indented [':'] 0 none [], .mk .text [' '] 0 none [],
           .mk .text ['x'] 0 none []]]))))
      = .mk .article [] 0 none [.mk .paragraph [] 0 none
          [.mk .indented [':'] 0 none [], .mk .text ['x'] 0 none []]] := by decide
  have h5 : fixLists (ANode.mk .article [] 0 none [.mk .paragraph [] 0 none
          [.mk .indented [':'] 0 none [], .mk .text ['x'] 0 none []]])
      = .mk .article [] 0 none [.mk .paragraph [] 0 none
          [.mk .indented [':'] 0 none [], .mk .text ['x'] 0 none []]] := by
    simp [fixLists, fixListsT, fixListsL]
  simp only [buildAdvancedTree, h1, h2, h3, h4, h5]
  decide

/-- Claim C1 (amended): the full pipeline is not idempotent (see
`C1_counterexample`: a second run removes whitespace-only text nodes
whose live neighbours the style pass turned into block nodes).  What
does hold is per-pass idempotence of the tag fixup: running
`fixTagNodes` twice yields the tree of running it once, since a
reclassified tag node never has the generic `TagNode` kind again and an
unrecognized one is left unchanged. -/
theorem C1_amended_fixTagNodes_idempotent (t : ANode) :
    fixTagNodes (fixTagNodes t) = fixTagNodes t :=
  fixTagNodesT_twice t

/-! ## Claim C5 -/

/-- Claim C5: three consecutive sibling generic style nodes with captions
`;`, `:`, `:` (no `DefinitionList` sibling before them — here they are
the only children) are grouped by `fixStyles` into a single
`DefinitionList` at the first node's position, whose children are one
`DefinitionTerm` holding the `;` node's original children followed by
two `DefinitionDescription` nodes holding the `:` nodes' children, in
original order.  (The source keeps the `;` caption on the list node and
clears the `:` captions.) -/
theorem C5_definition_list_grouping (pk : Kind) (pcap : Str)
    (cs1 cs2 cs3 : List ANode) (hpk : pk ≠ Kind.style)
    (h1 : styleFreeL cs1 = true) (h2 : styleFreeL cs2 = true)
    (h3 : styleFreeL cs3 = true) :
    fixStyles (.mk pk pcap 0 none
        [.mk .style semiTok 0 none cs1,
         .mk .style [':'] 0 none cs2,
         .mk .style [':'] 0 none cs3])
      = .mk pk pcap 0 none
        [.mk .definitionList semiTok 0 none
          [.mk .definitionTerm [] 0 none cs1,
           .mk .definitionDescription [] 0 none cs2,
           .mk .definitionDescription [] 0 none cs3]] := by
  simp +decide [fixStyles, fixStylesL, fixStylesT, hpk,
    fixStylesL_of_styleFree cs1 h1, fixStylesL_of_styleFree cs2 h2,
    fixStylesL_of_styleFree cs3 h3,
    ANode.kind, ANode.children, ANode.withChildren,
    List.getLast?, List.dropLast]

/-- Witness for `C5_definition_list_grouping` at concrete children. -/
theorem C5_witness :
    (Kind.paragraph ≠ Kind.style
      ∧ styleFreeL [ANode.mk .text ['a'] 0 none []] = true
      ∧ styleFreeL [ANode.mk .text ['b'] 0 none []] = true
      ∧ styleFreeL [ANode.mk .text ['c'] 0 none []] = true)
    ∧ fixStyles (.mk .paragraph [] 0 none
        [.mk .style semiTok 0 none [ANode.mk .text ['a'] 0 none []],
         .mk .style [':'] 0 none [ANode.mk .text ['b'] 0 none []],
         .mk .style [':'] 0 none [ANode.mk .text ['c'] 0 none []]])
      = .mk .paragraph [] 0 none
        [.mk .definitionList semiTok 0 none
          [.mk .definitionTerm [] 0 none [ANode.mk .text ['a'] 0 none []],
           .mk .definitionDescription [] 0 none [ANode.mk .text ['b'] 0 none []],
           .mk .definitionDescription [] 0 none [ANode.mk .text ['c'] 0 none []]]] :=
  ⟨⟨by decide, by decide, by decide, by decide⟩,
    C5_definition_list_grouping Kind.paragraph [] _ _ _
      (by decide) (by decide) (by decide) (by decide)⟩

/-! ## Claim C6 -/

/-- Claim C6: a generic style node whose caption is five quote
characters with children `[X, Y]` is rewritten by `fixStyles` into a
`Strong` node with cleared caption whose only child is an `Emphasized`
node with children `[X, Y]` in original order. -/
theorem C6_strong_emphasis_split (X Y : ANode)
    (hx : styleFree X = true) (hy : styleFree Y = true) :
    fixStyles (.mk .style quote5 0 none [X, Y])
      = .mk .strong [] 0 none [.mk .emphasized quote2 0 none [X, Y]] := by
  have hxy : styleFreeL [X, Y] = true := by simp [styleFreeL, hx, hy]
  simp +decide [fixStyles, fixStylesL, fixStylesL_of_styleFree [X, Y] hxy]

/-- Witness for `C6_strong_emphasis_split` at concrete children. -/
theorem C6_witness :
    (styleFree (ANode.mk .text ['x'] 0 none []) = true
      ∧ styleFree (ANode.mk .link [] 0 none []) = true)
    ∧ fixStyles (.mk .style quote5 0 none
        [ANode.mk .text ['x'] 0 none [], ANode.mk .link [] 0 none []])
      = .mk .strong [] 0 none
        [.mk .emphasized quote2 0 none
          [ANode.mk .text ['x'] 0 none [], ANode.mk .link [] 0 none []]] :=
  ⟨⟨by decide, by decide⟩,
    C6_strong_emphasis_split _ _ (by decide) (by decide)⟩

/-! ## Claim C7 -/

/-- Claim C7 (code evaluation at the failing input): a generic tag node
named `h3` is converted by `fixTagNodes` into a `Section` node with
cleared caption — but the digit 3 is stored in the `_h_level` instance
attribute (`hUnder`), while the `h_level` attribute that
`AdvancedSection` documents for this purpose (`hLevel`) keeps its
default 0, contradicting the comment on `AdvancedSection` ("this is set
if it originates from an H1, H2, ... TagNode"). -/
theorem C7_heading_evaluation :
    fixTagNodes (.mk .article [] 0 none
        [.mk .tagNode ("h3".toList) 0 none []])
      = .mk .article [] 0 none [.mk .sect [] 0 (some 3) []]
    ∧ (ANode.mk .sect [] 0 (some 3) []).hLevel = 0
    ∧ (ANode.mk .sect [] 0 (some 3) []).hUnder = some 3 :=
  ⟨by decide, rfl, rfl⟩

/-! ## Claim C9 -/

/-- Claim C9: a `Paragraph` that has a parent, whose sole child is an
`ItemList`, and which itself has no siblings, is replaced in the
grandparent's children by that `ItemList` directly at the same position
by `fixLists`; the detached `Paragraph` is no longer reachable from the
root. -/
theorem C9_list_unwrapping (gk : Kind) (gcap pcap ilcap : Str)
    (gh ph ilh : Nat) (gu pu ilu : Option Nat) (ilcs : List ANode) :
    fixLists (.mk gk gcap gh gu
        [.mk .paragraph pcap ph pu [.mk .itemList ilcap ilh ilu ilcs]])
      = .mk gk gcap gh gu [.mk .itemList ilcap ilh ilu (fixListsL ilcs)] := by
  simp [fixLists, fixListsT, fixListsL]

/-! ## Claim C8 -/

/-- Claim C8: a generic tag node whose name is neither in the tag table
nor a heading token, and a generic style node whose caption is no
recognized token, survive the full pipeline in their generic kinds
(with kind, caption and children intact), and exactly one warning is
logged for each of them (`fixTagNodes` logs the tag name, `fixStyles`
logs the style caption); no branch of the pipeline raises — the
functions are total on such trees. -/
theorem C8_unknown_token_tolerance (tname scap : Str)
    (htag : tagLookup tname = none) (hhd : headingLevel tname = none)
    (hq2 : scap ≠ quote2) (hq5 : scap ≠ quote5) (hq3 : scap ≠ quote3)
    (hsemi : scap ≠ semiTok) (hcolon : startsWithColon scap = false)
    (hsl : styleLookup scap = none) :
    buildAdvancedTree (.mk .article [] 0 none
        [.mk .tagNode tname 0 none [], .mk .style scap 0 none []])
      = .mk .article [] 0 none
        [.mk .tagNode tname 0 none [], .mk .style scap 0 none []]
    ∧ pipelineWarnings (.mk .article [] 0 none
        [.mk .tagNode tname 0 none [], .mk .style scap 0 none []])
      = [tname, scap] := by
  have e1 : fixTagNodes (.mk .article [] 0 none
      [.mk .tagNode tname 0 none [], .mk .style scap 0 none []])
      = .mk .article [] 0 none
        [.mk .tagNode tname 0 none [], .mk .style scap 0 none []] := by
    simp +decide [fixTagNodes, fixTagNodesT, fixTagNodesL, htag, hhd]
  have e2 : removeNodes (.mk .article [] 0 none
      [.mk .tagNode tname 0 none [], .mk .style scap 0 none []])
      = .mk .article [] 0 none
        [.mk .tagNode tname 0 none [], .mk .style scap 0 none []] := by
    simp +decide [removeNodes, removeNodesT, removeNodesL]
  have e3 : removeNewlines (.mk .article [] 0 none
      [.mk .tagNode tname 0 none [], .mk .style scap 0 none []])
      = .mk .article [] 0 none
        [.mk .tagNode tname 0 none [], .mk .style scap 0 none []] := by
    simp +decide [removeNewlines, rnlT, rnlL, ANode.kind, ANode.caption,
      ANode.isblock, Kind.isinline]
  have e4 : fixStyles (.mk .article [] 0 none
      [.mk .tagNode tname 0 none [], .mk .style scap 0 none []])
      = .mk .article [] 0 none
        [.mk .tagNode tname 0 none [], .mk .style scap 0 none []] := by
    simp +decide [fixStyles, fixStylesT, fixStylesL, hq2, hq5, hq3, hsemi,
      hcolon, hsl, ANode.kind, ANode.children]
  have e5 : fixLists (.mk .article [] 0 none
      [.mk .tagNode tname 0 none [], .mk .style scap 0 none []])
      = .mk .article [] 0 none
        [.mk .tagNode tname 0 none [], .mk .style scap 0 none []] := by
    simp +decide [fixLists, fixListsT, fixListsL]
  have e6 : removeBreakingReturns (.mk .article [] 0 none
      [.mk .tagNode tname 0 none [], .mk .style scap 0 none []])
      = .mk .article [] 0 none
        [.mk .tagNode tname 0 none [], .mk .style scap 0 none []] := by
    simp +decide [removeBreakingReturns, rbrT, rbrL, ANode.kind,
      ANode.isblock, Kind.isinline]
  refine ⟨?_, ?_⟩
  · simp only [buildAdvancedTree, e1, e2, e3, e4, e5, e6]
  · simp only [pipelineWarnings, e1, e2, e3]
    simp +decide [tagWarnings, tagWarnT, tagWarnL, styleWarnT, styleWarnL,
      unknownStyleCap, htag, hhd, hq2, hq5, hq3, hsemi, hcolon, hsl,
      ANode.children]

/-- Witness for `C8_unknown_token_tolerance` at concrete unknown
tokens. -/
theorem C8_witness :
    (tagLookup ("foo".toList) = none ∧ headingLevel ("foo".toList) = none
      ∧ ("zzz".toList ≠ quote2 ∧ "zzz".toList ≠ quote5 ∧ "zzz".toList ≠ quote3
        ∧ "zzz".toList ≠ semiTok)
      ∧ startsWithColon ("zzz".toList) = false
      ∧ styleLookup ("zzz".toList) = none)
    ∧ buildAdvancedTree (.mk .article [] 0 none
        [.mk .tagNode ("foo".toList) 0 none [],
         .mk .style ("zzz".toList) 0 none []])
      = .mk .article [] 0 none
        [.mk .tagNode ("foo".toList) 0 none [],
         .mk .style ("zzz".toList) 0 none []]
    ∧ pipelineWarnings (.mk .article [] 0 none
        [.mk .tagNode ("foo".toList) 0 none [],
         .mk .style ("zzz".toList) 0 none []])
      = ["foo".toList, "zzz".toList] := by
  have h := C8_unknown_token_tolerance ("foo".toList) ("zzz".toList)
    (by decide) (by decide) (by decide) (by decide) (by decide)
    (by decide) (by decide) (by decide)
  exact ⟨⟨by decide, by decide, ⟨by decide, by decide, by decide, by decide⟩,
    by decide, by decide⟩, h.1, h.2⟩

/-! ## Claim C3 -/

/-- A childless node of the given kind and caption (a schematic
neighbour of the text node in claim C3). -/
def leafN (p : Kind × Str) : ANode := .mk p.1 p.2 0 none []

/-- An optional neighbour as a (zero- or one-element) sibling list. -/
def optLeaf (o : Option (Kind × Str)) : List ANode :=
  o.elim [] fun p => [leafN p]

/-- Claim C3's boundary test, next side: the next sibling (or, when
absent, the parent's next sibling) is absent or a block node. -/
def nextAbsentOrBlock (b pn : Option (Kind × Str)) : Bool :=
  match b with
  | some p => !p.1.isinline
  | none =>
    match pn with
    | some p => !p.1.isinline
    | none => true

/-- Claim C3's boundary test, previous side: the previous sibling (or,
when absent, the parent itself) is absent or a block node (the parent is
always present here, so this is its blockness). -/
def prevAbsentOrBlock (a : Option (Kind × Str)) (pk : Kind) : Bool :=
  match a with
  | some p => !p.1.isinline
  | none => !pk.isinline

/-- Claim C3: a whitespace-only text node with no preformatted ancestor
is removed by `removeNewlines` exactly when its next sibling (or, absent
that, its parent's next sibling) is absent-or-block, OR its previous
sibling (or, absent that, the parent itself) is absent-or-block.  Stated
on the schematic family covering every combination of
present/absent previous sibling `A`, next sibling `B` and parent's next
sibling `PN` (each an arbitrary non-text leaf), with an arbitrary
non-text, non-preformatted parent kind, under an `Article` root. -/
theorem C3_whitespace_boundary_removal (pk : Kind) (pcap tcap : Str)
    (A B PN : Option (Kind × Str))
    (hpk1 : pk ≠ Kind.text) (hpk2 : pk ≠ Kind.preformatted)
    (ht : whitespaceOnly tcap = true)
    (hA : ∀ p, A = some p → p.1 ≠ Kind.text)
    (hB : ∀ p, B = some p → p.1 ≠ Kind.text)
    (hPN : ∀ p, PN = some p → p.1 ≠ Kind.text) :
    removeNewlines (.mk .article [] 0 none
        ((ANode.mk pk pcap 0 none
            (optLeaf A ++ [ANode.mk .text tcap 0 none []] ++ optLeaf B))
          :: optLeaf PN))
      = .mk .article [] 0 none
        ((ANode.mk pk pcap 0 none
            (optLeaf A ++
              (if nextAbsentOrBlock B PN || prevAbsentOrBlock A pk then []
               else [ANode.mk .text (replaceNL tcap) 0 none []]) ++
              optLeaf B))
          :: optLeaf PN) := by
  rcases A with _ | ⟨ak, acap⟩ <;> rcases B with _ | ⟨bk, bcap⟩ <;>
    rcases PN with _ | ⟨pnk, pncap⟩ <;>
  simp_all +decide [removeNewlines, rnlT, rnlL, optLeaf, leafN,
    nextAbsentOrBlock, prevAbsentOrBlock, boundaryNext,
    ANode.kind, ANode.caption, ANode.isblock, Kind.isinline,
    Option.elim, Bool.or_eq_true, Bool.not_eq_true', Bool.not_eq_true] <;>
  (try (split <;> simp_all))

/-- Witness for `C3_whitespace_boundary_removal`: a whitespace text node
between an inline `Link` and a block `Table` (block next sibling, so it
is removed). -/
theorem C3_witness :
    (Kind.paragraph ≠ Kind.text ∧ Kind.paragraph ≠ Kind.preformatted
      ∧ whitespaceOnly [' ', '\n'] = true)
    ∧ removeNewlines (.mk .article [] 0 none
        [ANode.mk .paragraph [] 0 none
          (optLeaf (some (Kind.link, [])) ++ [ANode.mk .text [' ', '\n'] 0 none []] ++
            optLeaf (some (Kind.table, [])))])
      = .mk .article [] 0 none
        [ANode.mk .paragraph [] 0 none
          (optLeaf (some (Kind.link, [])) ++
            (if nextAbsentOrBlock (some (Kind.table, [])) none ||
                prevAbsentOrBlock (some (Kind.link, [])) Kind.paragraph then []
             else [ANode.mk .text (replaceNL [' ', '\n']) 0 none []]) ++
            optLeaf (some (Kind.table, [])))] :=
  ⟨⟨by decide, by decide, by decide⟩,
    C3_whitespace_boundary_removal Kind.paragraph [] [' ', '\n']
      (some (Kind.link, [])) (some (Kind.table, [])) none
      (by decide) (by decide) (by decide)
      (by intro p hp; cases hp; decide)
      (by intro p hp; cases hp; decide)
      (by intro p hp; cases hp)⟩

/-! ## Claim C4 -/

/-- The input refuting the collapse-to-a-single-space claim: the
retained text node's caption `"  \n "` has its newline replaced by one
space, yielding four spaces, not one. -/
def c4Input : ANode :=
  .mk .article [] 0 none
    [.mk .paragraph [] 0 none
      [.mk .link [] 0 none [],
       .mk .text [' ', ' ', '\n', ' '] 0 none [],
       .mk .text ['x'] 0 none []]]

/-- Claim C4 (counterexample): the retained whitespace text node's
caption after `removeNewlines` is four spaces — each newline becomes one
space, runs are not collapsed and nothing else is touched — not the
single space the claim asserts. -/
theorem C4_counterexample :
    removeNewlines c4Input
      = .mk .article [] 0 none
        [.mk .paragraph [] 0 none
          [.mk .link [] 0 none [],
           .mk .text [' ', ' ', ' ', ' '] 0 none [],
           .mk .text ['x'] 0 none []]]
    ∧ ([' ', ' ', ' ', ' '] : Str) ≠ [' '] :=
  ⟨by decide, by decide⟩

mutual

/-- Every text node outside preformatted ancestors has a
newline-free caption (`inPre` records whether a `PreFormatted`
ancestor exists). -/
def noNLOut (inPre : Bool) : ANode → Bool
  | .mk k c _ _ cs =>
    (if k = Kind.text ∧ inPre = false then c.all fun ch => ch ≠ '\n'
     else true) && noNLOutL (inPre || k = Kind.preformatted) cs

/-- List version of `noNLOut`. -/
def noNLOutL (inPre : Bool) : List ANode → Bool
  | [] => true
  | t :: rest => noNLOut inPre t && noNLOutL inPre rest
termination_by structural l => l

end

theorem replaceNL_all_ne_newline (c : Str) :
    ((replaceNL c).all fun ch => ch ≠ '\n') = true := by
  induction c with
  | nil => rfl
  | cons ch rest ih =>
    simp only [replaceNL, List.map_cons, List.all_cons, Bool.and_eq_true] at *
    refine ⟨?_, ih⟩
    by_cases hch : ch = '\n' <;> simp [hch]

mutual

theorem noNLOut_of_inPre : ∀ t, noNLOut true t = true
  | .mk k c h u cs => by
    simp [noNLOut, noNLOutL_of_inPre cs]

theorem noNLOutL_of_inPre : ∀ l, noNLOutL true l = true
  | [] => rfl
  | t :: rest => by
    simp [noNLOutL, noNLOut_of_inPre t, noNLOutL_of_inPre rest]

end

mutual

theorem rnlT_of_inPre : ∀ t childPN, rnlT true childPN t = t
  | .mk k c h u cs, childPN => by
    simp [rnlT, rnlL_of_inPre cs]

theorem rnlL_of_inPre :
    ∀ l (prevB : Bool) (pnext : Option Bool), rnlL true prevB pnext l = l
  | [], _, _ => rfl
  | (ANode.mk k c h u cs) :: rest, prevB, pnext => by
    simp only [rnlL]
    rw [if_neg (by simp)]
    rw [rnlT_of_inPre, rnlL_of_inPre rest]

end

mutual

theorem rnlT_noNL : ∀ t (inPre : Bool) (childPN : Option Bool),
    noNLOut inPre (rnlT inPre childPN t) = true
  | .mk k c h u cs, inPre, childPN => by
    rw [rnlT, noNLOut]
    rw [rnlL_noNL cs (inPre || k = Kind.preformatted)]
    rw [Bool.and_true]
    by_cases hk : k = Kind.text ∧ inPre = false
    · simp only [if_pos hk]
      exact replaceNL_all_ne_newline c
    · simp only [if_neg hk]

theorem rnlL_noNL : ∀ l (inPre prevB : Bool) (pnext : Option Bool),
    noNLOutL inPre (rnlL inPre prevB pnext l) = true
  | [], _, _, _ => rfl
  | (ANode.mk k c h u cs) :: rest, inPre, prevB, pnext => by
    simp only [rnlL]
    by_cases hrm : k = Kind.text ∧ inPre = false ∧ whitespaceOnly c = true ∧
        (boundaryNext (match rest with
          | n :: _ => some n.isblock
          | [] => pnext) = true ∨ prevB = true)
    · rw [if_pos hrm]
      exact rnlL_noNL rest inPre prevB pnext
    · rw [if_neg hrm, noNLOutL, rnlT_noNL, rnlL_noNL rest inPre]
      rfl

end

/-- Claim C4 (amended): after `removeNewlines` (started at a non-text
root), every retained text node outside preformatted ancestors has each
embedded newline replaced by a single space — so its caption contains no
newline — but whitespace runs are not collapsed and tabs are preserved
(see `C4_counterexample`); and the pass leaves everything below a
`PreFormatted` node byte-exact: on children lists inside a preformatted
ancestor it is the identity. -/
theorem C4_amended_newline_replacement :
    (∀ t : ANode, t.kind ≠ Kind.text → noNLOut false (removeNewlines t) = true)
    ∧ (∀ (prevB : Bool) (pnext : Option Bool) (l : List ANode),
        rnlL true prevB pnext l = l) := by
  constructor
  · intro t hk
    rw [removeNewlines, if_neg (by intro hcon; exact hk hcon.1)]
    exact rnlT_noNL t false none
  · intro prevB pnext l
    exact rnlL_of_inPre l prevB pnext

/-- Witness for `C4_amended_newline_replacement` at the counterexample
input (whose root is an `Article`, not a text node). -/
theorem C4_amended_witness :
    ((c4Input).kind ≠ Kind.text ∧ noNLOut false (removeNewlines c4Input) = true)
    ∧ rnlL true false none [ANode.mk .text ['a', '\n'] 0 none []]
      = [ANode.mk .text ['a', '\n'] 0 none []] :=
  ⟨⟨by decide, C4_amended_newline_replacement.1 c4Input (by decide)⟩,
    C4_amended_newline_replacement.2 false none [ANode.mk .text ['a', '\n'] 0 none []]⟩

/-! ## The id-based state model of the primitive mutations

The invariants of claim C2 speak about nodes that can be appended while
still attached elsewhere, which the inductive tree cannot represent;
the primitive operations of `AdvancedNode` are therefore also modelled
on an id-based state: node identities with a children sequence per node
and a weak parent back-reference per node. -/

/-- The mutable state: `nodes` is the finite set of node ids under
consideration, `ch n` the children sequence of node `n`, and `pr n` its
parent back-reference (`_parentref`), `none` when detached. -/
structure MState where
  nodes : List Nat
  ch : Nat → List Nat
  pr : Nat → Option Nat

/-- `AdvancedNode.appendChild` (lines 55-57 of the source): append `c`
to the children of `p` and point `c`'s parent reference at `p`.  The
source performs no detach from a previous parent and no checks. -/
def appendChildS (s : MState) (p c : Nat) : MState :=
  { s with
    ch := fun n => if n = p then s.ch p ++ [c] else s.ch n,
    pr := fun n => if n = c then some p else s.pr n }

/-- The splice `children[:idx] + mid + children[idx:]`. -/
def spliceAt (l : List Nat) (i : Nat) (mid : List Nat) : List Nat :=
  l.take i ++ mid ++ l.drop i

/-- `AdvancedNode.replaceChild` (lines 62-69): look up the index of `c`
(`ValueError`, modelled as `none`, when absent — raised before any
mutation), remove the first occurrence of `c`, clear `c`'s parent
reference and, when `newchildren` is nonempty, splice it in at the
remembered index, pointing each new child's parent reference at `p`. -/
def replaceChildS (s : MState) (p c : Nat) (ncs : List Nat) : Option MState :=
  if c ∈ s.ch p then
    some { s with
      ch := fun n =>
        if n = p then
          (if ncs.isEmpty then (s.ch p).erase c
           else spliceAt ((s.ch p).erase c) ((s.ch p).indexOf c) ncs)
        else s.ch n,
      pr := fun n =>
        if n ∈ ncs then some p else if n = c then none else s.pr n }
  else none

/-- `AdvancedNode.removeChild` (lines 59-60): `replaceChild(c, [])`. -/
def removeChildS (s : MState) (p c : Nat) : Option MState :=
  replaceChildS s p c []

/-- The outcome of `moveto`: either the new state, or the state at the
moment the source raises. -/
inductive MoveRes where
  | ok (s : MState)
  | err (s : MState)

/-- `AdvancedNode.moveto` (lines 42-53), in source order:
`self.parent.removeChild(self)` — raising on a parentless `self` before
any mutation — then `tp = targetnode.parent` and
`tp.children.index(targetnode)` — raising *after* `self` was detached
when the target has no parent (or is not among its parent's children) —
then insertion after (or, with the prefix flag, before) the target and
the update of `self`'s parent reference. -/
def movetoS (s : MState) (self target : Nat) (beforeFlag : Bool) : MoveRes :=
  match s.pr self with
  | none => .err s
  | some p =>
    match removeChildS s p self with
    | none => .err s
    | some s1 =>
      match s1.pr target with
      | none => .err s1
      | some tp =>
        if target ∈ s1.ch tp then
          .ok { s1 with
            ch := fun n =>
              if n = tp then
                spliceAt (s1.ch tp)
                  ((s1.ch tp).indexOf target + (if beforeFlag then 0 else 1))
                  [self]
              else s1.ch n,
            pr := fun n => if n = self then some tp else s1.pr n }
        else .err s1

/-- The structural invariant of §3 of the spec: every node occurring in
a children sequence of a tree node occurs there exactly once, occurs in
no other tree node's children, and its parent back-reference points at
that parent; conversely every parent back-reference is matched by
membership in that parent's children. -/
def WF (s : MState) : Prop :=
  (∀ p ∈ s.nodes, ∀ c ∈ s.ch p,
    c ∈ s.nodes ∧ s.pr c = some p ∧ (s.ch p).count c = 1 ∧
      ∀ q ∈ s.nodes, q ≠ p → c ∉ s.ch q)
  ∧ ∀ c ∈ s.nodes, s.pr c = none ∨ ∃ p ∈ s.nodes, s.pr c = some p ∧ c ∈ s.ch p

instance (s : MState) : Decidable (WF s) := by
  unfold WF
  exact inferInstance

/-- The tree of `C2_counterexample`: a root 0 with children 1 and 2. -/
def c2State : MState :=
  { nodes := [0, 1, 2],
    ch := fun n => if n = 0 then [1, 2] else [],
    pr := fun n => if n = 1 ∨ n = 2 then some 0 else none }

/-- Claim C2 (counterexample): the primitive operations do *not*
preserve the invariants for arbitrary sequences — `appendChild` does
not detach its argument, so appending node 2 (currently a child of the
root 0) to node 1 leaves 2 in two children sequences with an
inconsistent back-reference. -/
theorem C2_counterexample :
    WF c2State ∧ ¬ WF (appendChildS c2State 1 2) :=
  ⟨by decide, by decide⟩

theorem count_spliceAt (l : List Nat) (i : Nat) (mid : List Nat) (d : Nat) :
    (spliceAt l i mid).count d = l.count d + mid.count d := by
  unfold spliceAt
  rw [List.count_append, List.count_append]
  have h := congrArg (List.count d) (List.take_append_drop i l)
  rw [List.count_append] at h
  omega

theorem mem_spliceAt {d : Nat} {l : List Nat} {i : Nat} {mid : List Nat} :
    d ∈ spliceAt l i mid ↔ d ∈ l ∨ d ∈ mid := by
  rw [← List.count_pos_iff, count_spliceAt, ← List.count_pos_iff,
    ← List.count_pos_iff]
  omega

/-- In a well-formed state a detached node occurs in no tree node's
children sequence. -/
theorem WF.detached_not_mem {s : MState} (hWF : WF s) {c : Nat}
    (hpr : s.pr c = none) : ∀ q ∈ s.nodes, c ∉ s.ch q := by
  intro q hq hmem
  have h := (hWF.1 q hq c hmem).2.1
  rw [hpr] at h
  cases h

/-- Inserting a detached tree node anywhere into a tree node's children
preserves the invariant (common core of `appendChild` and the insertion
step of `moveto`). -/
theorem insert_WF {s : MState} {tp self i : Nat} (hWF : WF s)
    (htp : tp ∈ s.nodes) (hself : self ∈ s.nodes) (hpr : s.pr self = none) :
    WF { s with
      ch := fun n => if n = tp then spliceAt (s.ch tp) i [self] else s.ch n,
      pr := fun n => if n = self then some tp else s.pr n } := by
  obtain ⟨h1, h2⟩ := hWF
  have hnomem : ∀ q ∈ s.nodes, self ∉ s.ch q :=
    WF.detached_not_mem ⟨h1, h2⟩ hpr
  constructor
  · intro q hq d hd
    simp only at hd ⊢
    by_cases hqtp : q = tp
    · subst hqtp
      rw [if_pos rfl] at hd
      rcases mem_spliceAt.mp hd with hdl | hds
      · have hdself : d ≠ self := by
          intro hcon
          exact hnomem q hq (hcon ▸ hdl)
        obtain ⟨hd1, hd2, hd3, hd4⟩ := h1 q hq d hdl
        refine ⟨hd1, by rw [if_neg hdself]; exact hd2, ?_, ?_⟩
        · rw [if_pos rfl, count_spliceAt]
          have : List.count d [self] = 0 := by
            simp [List.count_singleton]
            omega
          omega
        · intro r hr hrq
          rw [if_neg hrq]
          exact hd4 r hr hrq
      · have hds' : d = self := by simpa using hds
        subst hds'
        refine ⟨hself, by rw [if_pos rfl], ?_, ?_⟩
        · rw [if_pos rfl, count_spliceAt]
          have hc0 : (s.ch q).count d = 0 :=
            List.count_eq_zero.mpr (hnomem q hq)
          simp [hc0, List.count_singleton]
        · intro r hr hrq
          rw [if_neg hrq]
          exact hnomem r hr
    · rw [if_neg hqtp] at hd
      have hdself : d ≠ self := by
        intro hcon
        exact hnomem q hq (hcon ▸ hd)
      obtain ⟨hd1, hd2, hd3, hd4⟩ := h1 q hq d hd
      refine ⟨hd1, by rw [if_neg hdself]; exact hd2, by rw [if_neg hqtp]; exact hd3, ?_⟩
      intro r hr hrq
      by_cases hrtp : r = tp
      · subst hrtp
        rw [if_pos rfl]
        intro hcon
        rcases mem_spliceAt.mp hcon with hdl | hds
        · exact hd4 r hr hrq hdl
        · exact hdself (by simpa using hds)
      · rw [if_neg hrtp]
        exact hd4 r hr hrq
  · intro d hd
    simp only
    by_cases hds : d = self
    · subst hds
      refine Or.inr ⟨tp, htp, by rw [if_pos rfl], ?_⟩
      rw [if_pos rfl]
      exact mem_spliceAt.mpr (Or.inr (by simp))
    · rw [if_neg hds]
      rcases h2 d hd with hnone | ⟨q, hq, hq2, hq3⟩
      · exact Or.inl hnone
      · refine Or.inr ⟨q, hq, hq2, ?_⟩
        by_cases hqtp : q = tp
        · subst hqtp
          rw [if_pos rfl]
          exact mem_spliceAt.mpr (Or.inl hq3)
        · rw [if_neg hqtp]
          exact hq3

theorem replaceChildS_WF {s : MState} {p c : Nat} {ncs : List Nat}
    {s2 : MState} (hWF : WF s) (hp : p ∈ s.nodes) (hnd : ncs.Nodup)
    (hncs : ∀ n ∈ ncs, n ∈ s.nodes ∧ (s.pr n = none ∨ n = c))
    (heq : replaceChildS s p c ncs = some s2) : WF s2 := by
  obtain ⟨h1, h2⟩ := hWF
  by_cases hmem : c ∈ s.ch p
  case neg =>
    rw [replaceChildS, if_neg hmem] at heq
    cases heq
  rw [replaceChildS, if_pos hmem, Option.some.injEq] at heq
  subst heq
  obtain ⟨hcN, hcP, hcCnt, hcOth⟩ := h1 p hp c hmem
  have hMc : ((s.ch p).erase c).count c = 0 := by
    rw [List.count_erase_self]
    omega
  have hMcount : ∀ d, d ≠ c → ((s.ch p).erase c).count d = (s.ch p).count d :=
    fun d hd => List.count_erase_of_ne hd _
  have hNLcount : ∀ d,
      (if ncs.isEmpty then (s.ch p).erase c
       else spliceAt ((s.ch p).erase c) ((s.ch p).indexOf c) ncs).count d
        = ((s.ch p).erase c).count d + ncs.count d := by
    intro d
    by_cases hne : ncs.isEmpty
    · rw [if_pos hne, List.isEmpty_iff.mp hne]
      simp
    · rw [if_neg hne, count_spliceAt]
  have hNLmem : ∀ d,
      (d ∈ (if ncs.isEmpty then (s.ch p).erase c
        else spliceAt ((s.ch p).erase c) ((s.ch p).indexOf c) ncs))
        ↔ d ∈ (s.ch p).erase c ∨ d ∈ ncs := by
    intro d
    rw [← List.count_pos_iff, hNLcount, ← List.count_pos_iff,
      ← List.count_pos_iff]
    omega
  have hn_notM : ∀ n ∈ ncs, n ∉ (s.ch p).erase c := by
    intro n hn
    rcases (hncs n hn).2 with hnone | hnc
    · intro hcon
      exact WF.detached_not_mem ⟨h1, h2⟩ hnone p hp (List.erase_subset _ _ hcon)
    · subst hnc
      exact List.count_eq_zero.mp hMc
  have hn_notOther : ∀ n ∈ ncs, ∀ q ∈ s.nodes, q ≠ p → n ∉ s.ch q := by
    intro n hn q hq hqp
    rcases (hncs n hn).2 with hnone | hnc
    · exact WF.detached_not_mem ⟨h1, h2⟩ hnone q hq
    · subst hnc
      exact hcOth q hq hqp
  constructor
  · intro q hq d hd
    simp only at hd ⊢
    by_cases hqp : q = p
    · subst hqp
      rw [if_pos rfl] at hd
      by_cases hdn : d ∈ ncs
      · refine ⟨(hncs d hdn).1, by rw [if_pos hdn], ?_, ?_⟩
        · rw [if_pos rfl, hNLcount]
          have hM0 : ((s.ch q).erase c).count d = 0 :=
            List.count_eq_zero.mpr (hn_notM d hdn)
          have hn1 : ncs.count d = 1 := List.count_eq_one_of_mem hnd hdn
          omega
        · intro r hr hrq
          rw [if_neg hrq]
          exact hn_notOther d hdn r hr hrq
      · have hdM : d ∈ (s.ch q).erase c := by
          rcases (hNLmem d).mp hd with h | h
          · exact h
          · exact absurd h hdn
        have hdc : d ≠ c := by
          intro hcon
          subst hcon
          exact List.count_eq_zero.mp hMc hdM
        obtain ⟨hd1, hd2, hd3, hd4⟩ := h1 q hq d (List.erase_subset _ _ hdM)
        refine ⟨hd1, ?_, ?_, ?_⟩
        · rw [if_neg hdn, if_neg hdc]
          exact hd2
        · rw [if_pos rfl, hNLcount, hMcount d hdc,
            List.count_eq_zero.mpr hdn]
          omega
        · intro r hr hrq
          rw [if_neg hrq]
          exact hd4 r hr hrq
    · rw [if_neg hqp] at hd
      obtain ⟨hd1, hd2, hd3, hd4⟩ := h1 q hq d hd
      have hdn : d ∉ ncs := by
        intro hcon
        rcases (hncs d hcon).2 with hnone | hnc
        · rw [hnone] at hd2
          cases hd2
        · subst hnc
          exact hcOth q hq hqp hd
      have hdc : d ≠ c := by
        intro hcon
        subst hcon
        exact hcOth q hq hqp hd
      refine ⟨hd1, ?_, by rw [if_neg hqp]; exact hd3, ?_⟩
      · rw [if_neg hdn, if_neg hdc]
        exact hd2
      · intro r hr hrq
        by_cases hrp : r = p
        · subst hrp
          rw [if_pos rfl, hNLmem]
          rintro (hcon | hcon)
          · exact hd4 r hr (by intro hc2; exact hqp hc2.symm) (List.erase_subset _ _ hcon)
          · exact hdn hcon
        · rw [if_neg hrp]
          exact hd4 r hr hrq
  · intro d hd
    simp only
    by_cases hdn : d ∈ ncs
    · refine Or.inr ⟨p, hp, by rw [if_pos hdn], ?_⟩
      rw [if_pos rfl, hNLmem]
      exact Or.inr hdn
    · by_cases hdc : d = c
      · subst hdc
        rw [if_neg hdn, if_pos rfl]
        exact Or.inl rfl
      · rw [if_neg hdn, if_neg hdc]
        rcases h2 d hd with hnone | ⟨q, hq, hq2, hq3⟩
        · exact Or.inl hnone
        · refine Or.inr ⟨q, hq, hq2, ?_⟩
          by_cases hqp : q = p
          · subst hqp
            rw [if_pos rfl, hNLmem]
            exact Or.inl ((List.mem_erase_of_ne hdc).mpr hq3)
          · rw [if_neg hqp]
            exact hq3

/-- The state after `removeChild(self)` inside `moveto`: the record
`replaceChildS` produces for an empty `newchildren` list. -/
def detachState (s : MState) (p c : Nat) : MState :=
  { s with
    ch := fun n =>
      if n = p then
        (if ([] : List Nat).isEmpty then (s.ch p).erase c
         else spliceAt ((s.ch p).erase c) ((s.ch p).indexOf c) [])
      else s.ch n,
    pr := fun n =>
      if n ∈ ([] : List Nat) then some p
      else if n = c then none else s.pr n }

theorem removeChildS_eq {s : MState} {p c : Nat} (hmem : c ∈ s.ch p) :
    removeChildS s p c = some (detachState s p c) := by
  rw [removeChildS, replaceChildS, if_pos hmem]
  rfl

theorem detachState_pr_self (s : MState) (p c : Nat) :
    (detachState s p c).pr c = none := by
  simp [detachState]

theorem detachState_pr_other (s : MState) (p : Nat) {c n : Nat} (h : n ≠ c) :
    (detachState s p c).pr n = s.pr n := by
  simp [detachState, h]

theorem movetoS_WF {s : MState} {self target : Nat} {b : Bool} {s2 : MState}
    (hWF : WF s) (hself : self ∈ s.nodes) (htgt : target ∈ s.nodes)
    (hne : target ≠ self) (heq : movetoS s self target b = .ok s2) : WF s2 := by
  rcases h2s : s.pr self with _ | p
  · simp only [movetoS, h2s] at heq
    cases heq
  · have hmm := hWF.2 self hself
    rw [h2s] at hmm
    rcases hmm with hbad | ⟨p2, hp2N, hp2E, hp2M⟩
    · cases hbad
    have hpp : p = p2 := by
      injection hp2E
    subst hpp
    have hrc := removeChildS_eq (s := s) (p := p) (c := self) hp2M
    have hWF1 : WF (detachState s p self) := by
      refine replaceChildS_WF (c := self) hWF hp2N List.nodup_nil (by simp) ?_
      exact hrc
    have hprt1 : (detachState s p self).pr target = s.pr target :=
      detachState_pr_other s p hne
    simp only [movetoS, h2s, hrc, hprt1] at heq
    rcases h2t : s.pr target with _ | tp
    · simp only [h2t] at heq
      cases heq
    · simp only [h2t] at heq
      have hmm2 := hWF1.2 target htgt
      rw [hprt1, h2t] at hmm2
      rcases hmm2 with hbad2 | ⟨tp2, htpN, htpE, htpM⟩
      · cases hbad2
      have htt : tp = tp2 := by
        injection htpE
      subst htt
      rw [if_pos htpM] at heq
      cases heq
      exact insert_WF hWF1 htpN hself (detachState_pr_self s p self)

theorem appendChildS_WF {s : MState} {p c : Nat} (hWF : WF s)
    (hp : p ∈ s.nodes) (hc : c ∈ s.nodes) (hpr : s.pr c = none) :
    WF (appendChildS s p c) := by
  have hkey := insert_WF (i := (s.ch p).length) hWF hp hc hpr
  have heqs : appendChildS s p c
      = { s with
          ch := fun n =>
            if n = p then spliceAt (s.ch p) (s.ch p).length [c] else s.ch n,
          pr := fun n => if n = c then some p else s.pr n } := by
    unfold appendChildS
    congr 1
    funext n
    by_cases hn : n = p
    · rw [if_pos hn, if_pos hn]
      unfold spliceAt
      rw [List.take_length, List.drop_length, List.append_nil]
    · rw [if_neg hn, if_neg hn]
  rw [heqs]
  exact hkey

/-- The primitive mutation operations of §4.1 of the spec. -/
inductive Op where
  | append (p c : Nat)
  | remove (p c : Nat)
  | replace (p c : Nat) (ncs : List Nat)
  | move (self target : Nat) (beforeFlag : Bool)

/-- The per-operation preconditions of the amended claim C2: the
operated parent is a tree node; an appended or spliced-in node is a
tree node and currently detached (or the very child being replaced),
and the spliced-in nodes are pairwise distinct; a removed or replaced
child is currently a child of the parent; a move's node and target are
tree nodes, both attached, and distinct. -/
def preB (s : MState) : Op → Bool
  | .append p c =>
    decide (p ∈ s.nodes) && decide (c ∈ s.nodes) && decide (s.pr c = none)
  | .remove p c => decide (p ∈ s.nodes) && decide (c ∈ s.ch p)
  | .replace p c ncs =>
    decide (p ∈ s.nodes) && decide (c ∈ s.ch p) && decide ncs.Nodup &&
      decide (∀ n ∈ ncs, n ∈ s.nodes ∧ (s.pr n = none ∨ n = c))
  | .move self target _ =>
    decide (self ∈ s.nodes) && decide (target ∈ s.nodes) &&
      (s.pr self).isSome && (s.pr target).isSome && decide (target ≠ self)

/-- One primitive operation, `none` on the raising paths. -/
def runOp (s : MState) : Op → Option MState
  | .append p c => some (appendChildS s p c)
  | .remove p c => removeChildS s p c
  | .replace p c ncs => replaceChildS s p c ncs
  | .move self target b =>
    match movetoS s self target b with
    | .ok s2 => some s2
    | .err _ => none

/-- A sequence of primitive operations, each step checked against its
precondition. -/
def runSeq (s : MState) : List Op → Option MState
  | [] => some s
  | op :: ops =>
    if preB s op then
      match runOp s op with
      | some s2 => runSeq s2 ops
      | none => none
    else none

theorem runOp_WF {s s2 : MState} {op : Op} (hWF : WF s)
    (hpre : preB s op = true) (hop : runOp s op = some s2) : WF s2 := by
  cases op with
  | append p c =>
    simp only [preB, Bool.and_eq_true, decide_eq_true_eq] at hpre
    obtain ⟨⟨hp, hc⟩, hprc⟩ := hpre
    simp only [runOp, Option.some.injEq] at hop
    subst hop
    exact appendChildS_WF hWF hp hc hprc
  | remove p c =>
    simp only [preB, Bool.and_eq_true, decide_eq_true_eq] at hpre
    obtain ⟨hp, hmem⟩ := hpre
    simp only [runOp, removeChildS] at hop
    exact replaceChildS_WF hWF hp List.nodup_nil (by simp) hop
  | replace p c ncs =>
    simp only [preB, Bool.and_eq_true, decide_eq_true_eq] at hpre
    obtain ⟨⟨⟨hp, hmem⟩, hnd⟩, hncs⟩ := hpre
    simp only [runOp] at hop
    exact replaceChildS_WF hWF hp hnd hncs hop
  | move self target b =>
    simp only [preB, Bool.and_eq_true, decide_eq_true_eq] at hpre
    obtain ⟨⟨⟨⟨hself, htgt⟩, _⟩, _⟩, hne⟩ := hpre
    simp only [runOp] at hop
    rcases hmv : movetoS s self target b with s3 | s3 <;>
      simp only [hmv] at hop
    · have hs : s3 = s2 := by injection hop
      subst hs
      exact movetoS_WF hWF hself htgt hne hmv
    · exact Option.noConfusion hop

/-- Claim C2 (amended): running any sequence of primitive operations
from a well-formed state, with every step's precondition holding (as
`runSeq` checks), yields a well-formed state: each child occurs once,
under one parent, with a matching parent back-reference, and every
parent back-reference is matched by child membership. -/
theorem C2_amended_invariant_preservation (ops : List Op) :
    ∀ s s2 : MState, WF s → runSeq s ops = some s2 → WF s2 := by
  induction ops with
  | nil =>
    intro s s2 hWF hrun
    simp only [runSeq, Option.some.injEq] at hrun
    subst hrun
    exact hWF
  | cons op ops ih =>
    intro s s2 hWF hrun
    rw [runSeq] at hrun
    by_cases hpre : preB s op = true
    case neg => rw [if_neg hpre] at hrun; cases hrun
    rw [if_pos hpre] at hrun
    rcases hop : runOp s op with _ | s1 <;> rw [hop] at hrun
    · cases hrun
    · exact ih s1 s2 (runOp_WF hWF hpre hop) hrun

/-- Witness tree for the amended claim C2: root 0 with children 1 and
2, plus a detached node 3. -/
def c2SeqState : MState :=
  { nodes := [0, 1, 2, 3],
    ch := fun n => if n = 0 then [1, 2] else [],
    pr := fun n => if n = 1 ∨ n = 2 then some 0 else none }

/-- Witness operation sequence exercising all four primitives. -/
def c2Ops : List Op :=
  [.append 1 3, .move 3 2 false, .remove 0 1, .replace 0 2 [1]]

theorem C2_amended_witness :
    WF c2SeqState ∧ (runSeq c2SeqState c2Ops).isSome = true ∧
      Option.elim (runSeq c2SeqState c2Ops) False WF := by
  refine ⟨by decide, by decide, ?_⟩
  rcases h : runSeq c2SeqState c2Ops with _ | s2
  · have hs : (runSeq c2SeqState c2Ops).isSome = true := by decide
    rw [h] at hs
    cases hs
  · simp only [Option.elim]
    exact C2_amended_invariant_preservation c2Ops c2SeqState s2 (by decide) h

/-- Claim C10: when `self` is attached under `p` but `target` has no
parent, `moveto` detaches `self` (it disappears from `p`'s children
and its parent reference is cleared) and then raises — mutation has
already happened at the point of the error. -/
theorem C10_moveto_partial_mutation (s : MState) (self target p : Nat)
    (b : Bool) (hWF : WF s) (hself : self ∈ s.nodes)
    (hpr : s.pr self = some p) (htgt : s.pr target = none) :
    movetoS s self target b = .err (detachState s p self) ∧
      (detachState s p self).pr self = none ∧
      self ∈ s.ch p ∧ self ∉ (detachState s p self).ch p ∧
      (detachState s p self).nodes = s.nodes := by
  have hmm := hWF.2 self hself
  rw [hpr] at hmm
  rcases hmm with hbad | ⟨p2, hp2N, hp2E, hp2M⟩
  · cases hbad
  have hpp : p = p2 := by injection hp2E
  subst hpp
  have hne : target ≠ self := by
    intro hcon
    subst hcon
    rw [hpr] at htgt
    cases htgt
  have hrc := removeChildS_eq (s := s) (p := p) (c := self) hp2M
  have hcnt := (hWF.1 p hp2N self hp2M).2.2.1
  refine ⟨?_, detachState_pr_self s p self, hp2M, ?_, rfl⟩
  · simp only [movetoS, hpr, hrc, detachState_pr_other s p hne, htgt]
  · have hchp : (detachState s p self).ch p = (s.ch p).erase self := by
      simp [detachState]
    rw [hchp]
    intro hcon
    have hpos := List.count_pos_iff.mpr hcon
    rw [List.count_erase_self] at hpos
    omega

/-- Witness state for C10: root 0 with the single child 1, and a
detached node 2. -/
def c10State : MState :=
  { nodes := [0, 1, 2],
    ch := fun n => if n = 0 then [1] else [],
    pr := fun n => if n = 1 then some 0 else none }

theorem C10_witness :
    movetoS c10State 1 2 false = .err (detachState c10State 0 1) ∧
      (detachState c10State 0 1).pr 1 = none ∧
      1 ∈ c10State.ch 0 ∧ 1 ∉ (detachState c10State 0 1).ch 0 ∧
      (detachState c10State 0 1).nodes = c10State.nodes :=
  C10_moveto_partial_mutation c10State 1 2 0 false (by decide) (by decide)
    (by decide) (by decide)
